import Mathlib

/-!
Verification of the path-resolution and directory-indexing subsystem of
`displaymd` (src/main.rs), a small HTTP server that displays a tree of
markdown files.

The filesystem is modelled as a finite tree of nodes (`FsNode`), each node
either a regular file with a content string and a readability flag, or a
directory with a readability flag (readable = `read_dir` succeeds) and a
list of named entries.  Absolute paths are lists of components (the view a
Unix kernel has after splitting on `/`); there are no symlinks in the
model, so `canonicalize` is stepwise resolution of `.`, `..` and ordinary
components against the tree, requiring every intermediate component to be
an existing directory and the final target to exist, exactly as realpath
does.  The `BTreeMap<String, String>` of the source is modelled as an
association list kept sorted by key, with insertion replacing an equal key.
-/

/-- Split a list of characters at the last `.`, returning the parts before
and after it, or `none` when there is no `.` at all.  Helper for the model
of Rust's `Path::file_stem` / `Path::extension`. -/
def splitLastDot : List Char → Option (List Char × List Char)
  | [] => none
  | c :: cs =>
    match splitLastDot cs with
    | some (p, q) => some (c :: p, q)
    | none => if c = '.' then some ([], cs) else none

/-- Rust `Path` file-name splitting: the portion before the last `.` and
the portion after it.  A name whose only `.` is its first character (such
as `.md`) has no extension and is its own stem, matching Rust. -/
def splitName (s : String) : String × Option String :=
  match splitLastDot s.toList with
  | some (p, q) => if p = [] then (s, none) else (⟨p⟩, some ⟨q⟩)
  | none => (s, none)

/-- Model of Rust `Path::extension` applied to a path whose final
component is `name`. -/
def extension (name : String) : Option String :=
  (splitName name).2

/-- Model of Rust `Path::file_stem` applied to a path whose final
component is `name`; `none` models the case where the path has no file
name at all. -/
def file_stem (name : String) : Option String :=
  if name = "" then none else some (splitName name).1

mutual
/-- A node of the modelled filesystem: a regular file (readable flag and
content) or a directory (readable flag and named entries). -/
inductive FsNode : Type where
  | file (readable : Bool) (content : String) : FsNode
  | dir (readable : Bool) (entries : FsEntries) : FsNode

/-- The entry list of a directory: a list of (name, node) pairs. -/
inductive FsEntries : Type where
  | nil : FsEntries
  | cons (name : String) (node : FsNode) (rest : FsEntries) : FsEntries
end

/-- Look a name up in a directory's entry list (first match wins). -/
def FsEntries.find : FsEntries → String → Option FsNode
  | .nil, _ => none
  | .cons n node rest, c => if n = c then some node else rest.find c

/-- Follow a component path down the tree; `some` exactly when every
component exists and all the intermediate ones are directories. -/
def FsNode.lookup : FsNode → List String → Option FsNode
  | n, [] => some n
  | .file _ _, _ :: _ => none
  | .dir _ es, c :: cs =>
    match es.find c with
    | some child => child.lookup cs
    | none => none

/-- Whether the path names an existing directory of the tree. -/
def isDirAt (fs : FsNode) (p : List String) : Bool :=
  match fs.lookup p with
  | some (.dir _ _) => true
  | _ => false

/-- Model of `std::fs::read_to_string`: succeeds exactly on an existing
readable regular file. -/
def readFile (fs : FsNode) (p : List String) : Option String :=
  match fs.lookup p with
  | some (.file true c) => some c
  | _ => none

/-- Stepwise realpath-style canonicalization: `acc` is the already
resolved absolute directory, the second list the components still to
process.  Empty and `.` components are skipped, `..` moves to the parent
(staying at the filesystem root when already there) and any step away
from `acc` insists that `acc` is an existing directory; the final target
must exist.  This models Rust `Path::canonicalize` on a tree without
symlinks. -/
def canonAux (fs : FsNode) : List String → List String → Option (List String)
  | acc, [] => if (fs.lookup acc).isSome then some acc else none
  | acc, c :: cs =>
    if c = "" ∨ c = "." then canonAux fs acc cs
    else if c = ".." then
      if isDirAt fs acc then canonAux fs acc.dropLast cs else none
    else
      if isDirAt fs acc then canonAux fs (acc ++ [c]) cs else none

/-- Canonicalize an absolute component path against the tree. -/
def canonicalizePath (fs : FsNode) (p : List String) : Option (List String) :=
  canonAux fs [] p

/-- True when the requested string denotes an absolute path, in which case
Rust's `PathBuf::join` discards the left-hand side. -/
def isAbsolute (s : String) : Bool :=
  match s.toList with
  | '/' :: _ => true
  | _ => false

/-- Split a list of characters on `/`, keeping empty pieces (they are
skipped later, as `Path::components` does). -/
def splitSlash : List Char → List (List Char)
  | [] => [[]]
  | c :: cs =>
    match splitSlash cs with
    | [] => [[c]]
    | g :: gs => if c = '/' then [] :: g :: gs else (c :: g) :: gs

/-- The component list of a requested path string. -/
def componentsOf (s : String) : List String :=
  (splitSlash s.toList).map (fun cs => ⟨cs⟩)

/-- Model of `root.join(path)` for an absolute component root and an
untrusted requested string. -/
def joinPath (root : List String) (path : String) : List String :=
  if isAbsolute path then componentsOf path else root ++ componentsOf path

/-- Model of Rust `Path::starts_with`: component-wise prefix test of the
first path against the second. -/
def startsWithRoot : List String → List String → Bool
  | _, [] => true
  | [], _ :: _ => false
  | c :: cs, r :: rs => if c = r then startsWithRoot cs rs else false

/-- The error of the io::Result returned by `file_to_markdown`:
`notFound` is the explicit `ErrorKind::NotFound` produced by the
resolution check, `other` any error escaping `read_to_string`. -/
inductive IoErr : Type where
  | notFound : IoErr
  | other : IoErr
deriving DecidableEq

/-- Model of `file_to_markdown`: join the untrusted path onto the root,
canonicalize, require the result to start with the root (component-wise),
then read the file. -/
def file_to_markdown (fs : FsNode) (root : List String) (path : String) :
    Except IoErr String :=
  match canonicalizePath fs (joinPath root path) with
  | some p =>
    if startsWithRoot p root then
      match readFile fs p with
      | some c => Except.ok c
      | none => Except.error IoErr.other
    else Except.error IoErr.notFound
  | none => Except.error IoErr.notFound

/-- Lexicographic comparison of character lists by codepoint, the order a
Rust `BTreeMap<String, _>` sorts its keys in (byte-wise UTF-8 comparison
and codepoint-wise comparison agree). -/
def ltChars : List Char → List Char → Bool
  | [], [] => false
  | [], _ :: _ => true
  | _ :: _, [] => false
  | a :: as, b :: bs =>
    if a.toNat < b.toNat then true
    else if b.toNat < a.toNat then false
    else ltChars as bs

/-- Strict lexicographic codepoint order on strings. -/
def strLt (s t : String) : Bool :=
  ltChars s.toList t.toList

/-- Insertion into the sorted association list, replacing the value when
the key is already present, as `BTreeMap::insert` does. -/
def insertSorted (k v : String) : List (String × String) → List (String × String)
  | [] => [(k, v)]
  | (k', v') :: rest =>
    if strLt k k' then (k, v) :: (k', v') :: rest
    else if k = k' then (k, v) :: rest
    else (k', v') :: insertSorted k v rest

/-- Model of `path.strip_prefix(root)`: `some` of the remaining components
when `root` is a component-wise prefix of the path. -/
def stripRoot : List String → List String → Option (List String)
  | [], p => some p
  | _ :: _, [] => none
  | r :: rs, c :: cs => if r = c then stripRoot rs cs else none

/-- Join relative components with `/`, the uniform separator of the index
keys (`relative.to_string_lossy()` on Unix). -/
def joinSlash : List String → String
  | [] => ""
  | [x] => x
  | x :: y :: xs => x ++ "/" ++ joinSlash (y :: xs)

mutual
/-- Model of `collect_recursive(root, dir, files)` where `node` is the
tree node living at absolute path `dirPath`: a failing `read_dir`
(unreadable directory, or not a directory at all) returns the accumulator
unchanged, otherwise every entry is processed in order. -/
def collect_recursive (root dirPath : List String) (node : FsNode)
    (files : List (String × String)) : List (String × String) :=
  match node with
  | .file _ _ => files
  | .dir false _ => files
  | .dir true es => collectEntries root dirPath es files
termination_by structural node

/-- The body of the `for entry in entries` loop of `collect_recursive`:
directories are recursed into, files are inserted when their extension is
exactly `md`; the key is the root-relative path joined with `/` and the
display name is the file stem.  The two `unwrap`s of the source are
modelled with defaults here; `collect_recursiveP` below tracks them as
potential panics. -/
def collectEntries (root dirPath : List String) (es : FsEntries)
    (files : List (String × String)) : List (String × String) :=
  match es with
  | .nil => files
  | .cons name child rest =>
    let files' :=
      match child with
      | .dir _ _ => collect_recursive root (dirPath ++ [name]) child files
      | .file _ _ =>
        if extension name = some "md" then
          insertSorted (joinSlash ((stripRoot root (dirPath ++ [name])).getD []))
            ((file_stem name).getD "") files
        else files
    collectEntries root dirPath rest files'
termination_by structural es
end

/-- Model of `collect_md_files(root)`: run the recursive collection from
the root directory into an empty map. -/
def collect_md_files (fs : FsNode) (root : List String) : List (String × String) :=
  match fs.lookup root with
  | some n => collect_recursive root root n []
  | none => []

mutual
/-- Panic-tracking variant of `collect_recursive`: identical to it except
that the two `unwrap`s of the source are modelled faithfully, `none`
meaning the source would panic. -/
def collect_recursiveP (root dirPath : List String) (node : FsNode)
    (files : List (String × String)) : Option (List (String × String)) :=
  match node with
  | .file _ _ => some files
  | .dir false _ => some files
  | .dir true es => collectEntriesP root dirPath es files

/-- Panic-tracking variant of `collectEntries`. -/
def collectEntriesP (root dirPath : List String) (es : FsEntries)
    (files : List (String × String)) : Option (List (String × String)) :=
  match es with
  | .nil => some files
  | .cons name child rest =>
    let files? :=
      match child with
      | .dir _ _ => collect_recursiveP root (dirPath ++ [name]) child files
      | .file _ _ =>
        if extension name = some "md" then
          match stripRoot root (dirPath ++ [name]), file_stem name with
          | some rel, some stem => some (insertSorted (joinSlash rel) stem files)
          | _, _ => none
        else some files
    match files? with
    | some fs' => collectEntriesP root dirPath rest fs'
    | none => none
end

/-- Panic-tracking variant of `collect_md_files`. -/
def collect_md_filesP (fs : FsNode) (root : List String) :
    Option (List (String × String)) :=
  match fs.lookup root with
  | some n => collect_recursiveP root root n []
  | none => some []

mutual
/-- Specification-side enumeration of the root-relative component paths of
the markdown files a scan of `node` should report: files reachable through
readable directories whose name has extension exactly `md`, listed in
traversal order. -/
def mdPathsNode : FsNode → List (List String)
  | .file _ _ => []
  | .dir false _ => []
  | .dir true es => mdPathsEntries es

/-- Entry-list part of `mdPathsNode`. -/
def mdPathsEntries : FsEntries → List (List String)
  | .nil => []
  | .cons name child rest =>
    (match child with
     | .dir _ _ => (mdPathsNode child).map (fun r => name :: r)
     | .file _ _ => if extension name = some "md" then [[name]] else []) ++
    mdPathsEntries rest
end

/-- The index key a markdown file at root-relative components `rel` gets. -/
def toKey (rel : List String) : String :=
  joinSlash rel

/-- The display name a markdown file at root-relative components `rel`
gets: the stem of its final component. -/
def stemOf (rel : List String) : String :=
  (splitName (rel.getLastD "")).1

/-- The HTML of one sidebar entry: marked with the `active` class exactly
when its key equals the currently viewed path. -/
def sidebarItem (current : String) (e : String × String) : String :=
  "<li" ++ (if e.1 = current then " class=\"active\"" else "") ++
    "><a href=\"/view/" ++ e.1 ++ "\">" ++ e.2 ++ "</a></li>"

/-- Model of `build_sidebar`: a pure function of the index and the current
path, folding the entry HTML between `<ul>` tags. -/
def build_sidebar (files : List (String × String)) (current : String) : String :=
  (files.foldl (fun out e => out ++ sidebarItem current e) "<ul>") ++ "</ul>"

/-- An HTTP response of the axum layer: a status code and a body.  A
handler returning `Html<String>` always produces status 200. -/
structure HttpResponse : Type where
  status : Nat
  body : String
deriving DecidableEq

/-- The fixed body `view` answers whenever `file_to_markdown` fails. -/
def notFoundBody : String :=
  "<p>File not found<p>"

/-- The page layout of `view` on success: the format string of the source
with the title, style, sidebar and raw content spliced in. -/
def pageHtml (css path sidebar content : String) : String :=
  "<!DOCTYPE html>\n<html>\n<head>\n    <meta charset=\"utf-8\">\n    <title>" ++
    path ++ "</title>\n    <style>" ++ css ++
    "</style>\n</head>\n<body>\n    <nav class=\"sidebar\">" ++ sidebar ++
    "</nav>\n    <main class=\"content\">" ++ content ++
    "</main>\n</body>\n</html>"

/-- Model of the `view` handler.  `css` stands for the `CSS` constant of
the source; modelled from the spec: the stylesheet `static/style.css` is
an external asset out of scope, so the handler is parameterized by it. -/
def view (fs : FsNode) (root : List String) (css : String) (path : String) :
    HttpResponse :=
  match file_to_markdown fs root path with
  | Except.error _ => ⟨200, notFoundBody⟩
  | Except.ok content =>
    ⟨200, pageHtml css path (build_sidebar (collect_md_files fs root) path) content⟩

/-- Model of the `index` handler, as the target of the redirect it
issues: `/view/` followed by the first key of the sorted index, or by the
empty string (`unwrap_or_default`) when the index is empty. -/
def indexRedirect (fs : FsNode) (root : List String) : String :=
  "/view/" ++ (((collect_md_files fs root).map Prod.fst).headD "")

/-- The keys of a sorted association list are strictly ascending. -/
def SortedKeys (l : List (String × String)) : Prop :=
  l.Pairwise (fun a b => strLt a.1 b.1 = true)

/-- Folding the markdown paths under a directory into the map: the
declarative counterpart of the recursive collection, used to relate the
scanner to `mdPathsNode`. -/
def insertAllRel (d : List String) (rels : List (List String))
    (files : List (String × String)) : List (String × String) :=
  rels.foldl (fun acc r => insertSorted (toKey (d ++ r)) (stemOf (d ++ r)) acc) files

/-- The HTML of an entry marked active. -/
def activeItem (e : String × String) : String :=
  "<li" ++ " class=\"active\"" ++ "><a href=\"/view/" ++ e.1 ++ "\">" ++ e.2 ++ "</a></li>"

/-- The HTML of an entry not marked active. -/
def plainItem (e : String × String) : String :=
  "<li" ++ "><a href=\"/view/" ++ e.1 ++ "\">" ++ e.2 ++ "</a></li>"

/-- Concatenation of a list of strings. -/
def concatStrings : List String → String
  | [] => ""
  | s :: rest => s ++ concatStrings rest

def fsEx : FsNode :=
  FsNode.dir true
    (FsEntries.cons "srv"
      (FsNode.dir true
        (FsEntries.cons "docs"
          (FsNode.dir true
            (FsEntries.cons "a.md" (FsNode.file true "# A")
              (FsEntries.cons "notes.txt" (FsNode.file true "plain")
                (FsEntries.cons "sub"
                  (FsNode.dir true
                    (FsEntries.cons "b.md" (FsNode.file true "B") FsEntries.nil))
                  (FsEntries.cons "locked"
                    (FsNode.dir false
                      (FsEntries.cons "c.md" (FsNode.file true "C") FsEntries.nil))
                    FsEntries.nil)))))
          (FsEntries.cons "docs-evil"
            (FsNode.dir true
              (FsEntries.cons "x.md" (FsNode.file true "evil") FsEntries.nil))
            FsEntries.nil)))
      (FsEntries.cons "etc"
        (FsNode.dir true
          (FsEntries.cons "passwd" (FsNode.file true "root:x:0:0") FsEntries.nil))
        FsEntries.nil))

def rootEx : List String := ["srv", "docs"]

def nEx8 : FsNode :=
  FsNode.dir true
    (FsEntries.cons "sub"
      (FsNode.dir true
        (FsEntries.cons "dir"
          (FsNode.dir true
            (FsEntries.cons "notes.md" (FsNode.file true "N") FsEntries.nil))
          FsEntries.nil))
      FsEntries.nil)

def fsEx8 : FsNode :=
  FsNode.dir true (FsEntries.cons "r" nEx8 FsEntries.nil)

theorem ltChars_irrefl : ∀ cs : List Char, ltChars cs cs = false
  | [] => rfl
  | c :: cs => by simp [ltChars, ltChars_irrefl cs]

theorem ltChars_trans : ∀ a b c : List Char,
    ltChars a b = true → ltChars b c = true → ltChars a c = true := by
  intro a
  induction a with
  | nil =>
    intro b c hab hbc
    cases b with
    | nil => exact absurd hab (by simp [ltChars])
    | cons y ys =>
      cases c with
      | nil => exact absurd hbc (by simp [ltChars])
      | cons z zs => simp [ltChars]
  | cons x xs ih =>
    intro b c hab hbc
    cases b with
    | nil => exact absurd hab (by simp [ltChars])
    | cons y ys =>
      cases c with
      | nil => exact absurd hbc (by simp [ltChars])
      | cons z zs =>
        simp only [ltChars] at hab hbc ⊢
        rcases Nat.lt_trichotomy x.toNat y.toNat with h1 | h1 | h1
        · rcases Nat.lt_trichotomy y.toNat z.toNat with h2 | h2 | h2
          · rw [if_pos (by omega : x.toNat < z.toNat)]
          · rw [if_pos (by omega : x.toNat < z.toNat)]
          · rw [if_neg (by omega), if_pos (by omega)] at hbc
            exact absurd hbc (by simp)
        · rcases Nat.lt_trichotomy y.toNat z.toNat with h2 | h2 | h2
          · rw [if_pos (by omega : x.toNat < z.toNat)]
          · rw [if_neg (by omega), if_neg (by omega)] at hab
            rw [if_neg (by omega), if_neg (by omega)] at hbc
            rw [if_neg (by omega), if_neg (by omega)]
            exact ih ys zs hab hbc
          · rw [if_neg (by omega), if_pos (by omega)] at hbc
            exact absurd hbc (by simp)
        · rw [if_neg (by omega), if_pos (by omega)] at hab
          exact absurd hab (by simp)

theorem ltChars_asymm (a b : List Char) (h : ltChars a b = true) : ltChars b a = false := by
  by_contra hc
  have hba : ltChars b a = true := by
    cases hx : ltChars b a
    · exact absurd hx hc
    · rfl
  have := ltChars_trans a b a h hba
  rw [ltChars_irrefl a] at this
  exact absurd this (by simp)

theorem eq_of_ltChars_false : ∀ a b : List Char,
    ltChars a b = false → ltChars b a = false → a = b := by
  intro a
  induction a with
  | nil =>
    intro b hab _
    cases b with
    | nil => rfl
    | cons y ys => exact absurd hab (by simp [ltChars])
  | cons x xs ih =>
    intro b hab hba
    cases b with
    | nil => exact absurd hba (by simp [ltChars])
    | cons y ys =>
      simp only [ltChars] at hab hba
      rcases Nat.lt_trichotomy x.toNat y.toNat with h1 | h1 | h1
      · rw [if_pos h1] at hab
        exact absurd hab (by simp)
      · rw [if_neg (by omega), if_neg (by omega)] at hab
        rw [if_neg (by omega), if_neg (by omega)] at hba
        have hxy : x = y := by
          apply Char.ext
          apply UInt32.ext
          simpa [UInt32.toNat] using h1
        rw [hxy, ih ys hab hba]
      · rw [if_pos h1] at hba
        exact absurd hba (by simp)

theorem strLt_irrefl (s : String) : strLt s s = false :=
  ltChars_irrefl s.toList

theorem strLt_trans {a b c : String} (hab : strLt a b = true) (hbc : strLt b c = true) :
    strLt a c = true :=
  ltChars_trans a.toList b.toList c.toList hab hbc

theorem strLt_asymm {a b : String} (h : strLt a b = true) : strLt b a = false :=
  ltChars_asymm a.toList b.toList h

theorem eq_of_strLt_false {a b : String} (hab : strLt a b = false)
    (hba : strLt b a = false) : a = b :=
  String.ext (eq_of_ltChars_false a.toList b.toList hab hba)

theorem strLt_ne {a b : String} (h : strLt a b = true) : a ≠ b := by
  intro he
  rw [he, strLt_irrefl] at h
  exact absurd h (by simp)

theorem mem_keys_insertSorted (k v x : String) : ∀ l : List (String × String),
    (x ∈ (insertSorted k v l).map Prod.fst ↔ x = k ∨ x ∈ l.map Prod.fst) := by
  intro l
  induction l with
  | nil => simp [insertSorted]
  | cons e rest ih =>
    by_cases h1 : strLt k e.1 = true
    · simp [insertSorted, h1]
    · by_cases h2 : k = e.1
      · simp only [insertSorted, if_neg h1, if_pos h2]
        subst h2
        simp
      · simp only [insertSorted, if_neg h1, if_neg h2]
        simp only [List.map_cons, List.mem_cons, ih]
        tauto

theorem sortedKeys_insertSorted (k v : String) : ∀ l : List (String × String),
    SortedKeys l → SortedKeys (insertSorted k v l) := by
  intro l
  induction l with
  | nil =>
    intro _
    simp [insertSorted, SortedKeys]
  | cons e rest ih =>
    intro hs
    rw [SortedKeys, List.pairwise_cons] at hs
    by_cases h1 : strLt k e.1 = true
    · simp only [insertSorted, if_pos h1]
      rw [SortedKeys, List.pairwise_cons]
      constructor
      · intro a ha
        rcases List.mem_cons.mp ha with h | h
        · rw [h]; exact h1
        · exact strLt_trans h1 (hs.1 a h)
      · rw [SortedKeys] at *
        exact List.pairwise_cons.mpr hs
    · by_cases h2 : k = e.1
      · simp only [insertSorted, if_neg h1, if_pos h2]
        rw [SortedKeys, List.pairwise_cons]
        exact ⟨fun a ha => h2 ▸ hs.1 a ha, hs.2⟩
      · simp only [insertSorted, if_neg h1, if_neg h2]
        rw [SortedKeys, List.pairwise_cons]
        constructor
        · intro a ha
          have hmem := (mem_keys_insertSorted k v a.1 rest).mp
            (List.mem_map.mpr ⟨a, ha, rfl⟩)
          rcases hmem with h | h
          · rw [h]
            cases hke : strLt e.1 k
            · exact absurd (eq_of_strLt_false (by simpa using h1) hke) h2
            · rfl
          · rcases List.mem_map.mp h with ⟨b, hb, hbe⟩
            rw [← hbe]
            exact hs.1 b hb
        · exact ih hs.2

theorem mem_insertSorted_of_not_mem (k v a b : String) :
    ∀ l : List (String × String), k ∉ l.map Prod.fst →
    ((a, b) ∈ insertSorted k v l ↔ (a = k ∧ b = v) ∨ (a, b) ∈ l) := by
  intro l
  induction l with
  | nil =>
    intro _
    simp [insertSorted]
  | cons e rest ih =>
    intro hk
    simp only [List.map_cons, List.mem_cons] at hk
    push_neg at hk
    by_cases h1 : strLt k e.1 = true
    · simp only [insertSorted, if_pos h1]
      simp
    · by_cases h2 : k = e.1
      · exact absurd h2 hk.1
      · simp only [insertSorted, if_neg h1, if_neg h2]
        simp only [List.mem_cons, ih hk.2]
        tauto

theorem insertAllRel_append (d : List String) (xs ys : List (List String))
    (files : List (String × String)) :
    insertAllRel d (xs ++ ys) files = insertAllRel d ys (insertAllRel d xs files) :=
  List.foldl_append _ _ xs ys

theorem insertAllRel_shift (d : List String) (name : String) :
    ∀ (rels : List (List String)) (files : List (String × String)),
    insertAllRel d (rels.map (fun r => name :: r)) files =
      insertAllRel (d ++ [name]) rels files := by
  intro rels
  induction rels with
  | nil => intro files; rfl
  | cons r rest ih =>
    intro files
    simp only [List.map_cons, insertAllRel, List.foldl_cons]
    have h : d ++ name :: r = (d ++ [name]) ++ r := by
      simp
    rw [h]
    exact ih _

theorem stripRoot_append : ∀ root xs : List String, stripRoot root (root ++ xs) = some xs := by
  intro root
  induction root with
  | nil => intro xs; rfl
  | cons r rs ih =>
    intro xs
    simp only [List.cons_append, stripRoot, if_pos rfl]
    exact ih xs

theorem extension_ne_empty {name e : String} (h : extension name = some e) :
    name ≠ "" := by
  intro hn
  rw [hn] at h
  have h0 : extension "" = none := rfl
  rw [h0] at h
  cases h

theorem insertAllRel_single (d rel : List String) (files : List (String × String)) :
    insertAllRel d [rel] files =
      insertSorted (toKey (d ++ rel)) (stemOf (d ++ rel)) files :=
  rfl

mutual
theorem collect_recursive_spec (root : List String) (node : FsNode) :
    ∀ (d : List String) (files : List (String × String)),
    collect_recursive root (root ++ d) node files =
      insertAllRel d (mdPathsNode node) files := by
  cases node with
  | file r c =>
    intro d files
    rfl
  | dir r es =>
    cases r with
    | false =>
      intro d files
      rfl
    | true =>
      intro d files
      simp only [collect_recursive, mdPathsNode]
      exact collectEntries_spec root es d files
termination_by structural node

theorem collectEntries_spec (root : List String) (es : FsEntries) :
    ∀ (d : List String) (files : List (String × String)),
    collectEntries root (root ++ d) es files =
      insertAllRel d (mdPathsEntries es) files := by
  cases es with
  | nil =>
    intro d files
    rfl
  | cons name child rest =>
    intro d files
    cases child with
    | dir r es2 =>
      simp only [collectEntries, mdPathsEntries]
      rw [insertAllRel_append, insertAllRel_shift]
      have h1 : (root ++ d) ++ [name] = root ++ (d ++ [name]) :=
        List.append_assoc root d [name]
      rw [h1, collect_recursive_spec root (FsNode.dir r es2) (d ++ [name]) files]
      exact collectEntries_spec root rest d _
    | file r c =>
      simp only [collectEntries, mdPathsEntries]
      by_cases hmd : extension name = some "md"
      · rw [if_pos hmd, if_pos hmd, insertAllRel_append, insertAllRel_single]
        have hstrip : stripRoot root ((root ++ d) ++ [name]) = some (d ++ [name]) := by
          rw [List.append_assoc]
          exact stripRoot_append root (d ++ [name])
        have hstem : (file_stem name).getD "" = stemOf (d ++ [name]) := by
          rw [file_stem, if_neg (extension_ne_empty hmd), stemOf]
          simp
        rw [hstrip, Option.getD_some, hstem]
        have hkey : joinSlash (d ++ [name]) = toKey (d ++ [name]) := rfl
        rw [hkey]
        exact collectEntries_spec root rest d _
      · rw [if_neg hmd, if_neg hmd, List.nil_append]
        exact collectEntries_spec root rest d files
termination_by structural es
end

theorem collect_md_files_spec (fs : FsNode) (root : List String) (n : FsNode)
    (h : fs.lookup root = some n) :
    collect_md_files fs root = insertAllRel [] (mdPathsNode n) [] := by
  have h2 := collect_recursive_spec root n [] []
  rw [List.append_nil] at h2
  rw [collect_md_files, h]
  exact h2

theorem sortedKeys_insertAllRel (d : List String) : ∀ (rels : List (List String))
    (files : List (String × String)), SortedKeys files →
    SortedKeys (insertAllRel d rels files) := by
  intro rels
  induction rels with
  | nil => intro files h; exact h
  | cons r rest ih =>
    intro files h
    exact ih _ (sortedKeys_insertSorted _ _ _ h)

theorem sortedKeys_collect_md_files (fs : FsNode) (root : List String) :
    SortedKeys (collect_md_files fs root) := by
  cases h : fs.lookup root with
  | none =>
    rw [collect_md_files, h]
    exact List.Pairwise.nil
  | some n =>
    rw [collect_md_files_spec fs root n h]
    exact sortedKeys_insertAllRel [] _ [] List.Pairwise.nil

theorem mem_keys_insertAllRel (d : List String) (x : String) :
    ∀ (rels : List (List String)) (files : List (String × String)),
    (x ∈ (insertAllRel d rels files).map Prod.fst ↔
      (∃ r ∈ rels, x = toKey (d ++ r)) ∨ x ∈ files.map Prod.fst) := by
  intro rels
  induction rels with
  | nil => simp [insertAllRel]
  | cons r rest ih =>
    intro files
    have hstep : insertAllRel d (r :: rest) files =
        insertAllRel d rest (insertSorted (toKey (d ++ r)) (stemOf (d ++ r)) files) := rfl
    rw [hstep, ih, mem_keys_insertSorted]
    simp only [List.mem_cons]
    constructor
    · rintro (⟨r', hr', hx⟩ | hk | hm)
      · exact Or.inl ⟨r', Or.inr hr', hx⟩
      · exact Or.inl ⟨r, Or.inl rfl, hk⟩
      · exact Or.inr hm
    · rintro (⟨r', hr' | hr', hx⟩ | hm)
      · exact Or.inr (Or.inl (hr' ▸ hx))
      · exact Or.inl ⟨r', hr', hx⟩
      · exact Or.inr (Or.inr hm)

theorem mem_insertAllRel (d : List String) (a b : String) :
    ∀ (rels : List (List String)) (files : List (String × String)),
    (rels.map (fun r => toKey (d ++ r))).Nodup →
    (∀ r ∈ rels, toKey (d ++ r) ∉ files.map Prod.fst) →
    ((a, b) ∈ insertAllRel d rels files ↔
      (a, b) ∈ files ∨ ∃ r ∈ rels, a = toKey (d ++ r) ∧ b = stemOf (d ++ r)) := by
  intro rels
  induction rels with
  | nil =>
    intro files _ _
    simp [insertAllRel]
  | cons r rest ih =>
    intro files hnd hdisj
    simp only [List.map_cons, List.nodup_cons] at hnd
    have hKf : toKey (d ++ r) ∉ files.map Prod.fst := hdisj r (List.mem_cons_self r rest)
    have hstep : insertAllRel d (r :: rest) files =
        insertAllRel d rest (insertSorted (toKey (d ++ r)) (stemOf (d ++ r)) files) := rfl
    have hdisj' : ∀ r' ∈ rest, toKey (d ++ r') ∉
        (insertSorted (toKey (d ++ r)) (stemOf (d ++ r)) files).map Prod.fst := by
      intro r' hr'
      rw [mem_keys_insertSorted]
      rintro (he | hm)
      · exact hnd.1 (he ▸ List.mem_map.mpr ⟨r', hr', rfl⟩)
      · exact hdisj r' (List.mem_cons_of_mem r hr') hm
    rw [hstep, ih _ hnd.2 hdisj',
      mem_insertSorted_of_not_mem (toKey (d ++ r)) (stemOf (d ++ r)) a b files hKf]
    simp only [List.mem_cons]
    constructor
    · rintro ((⟨ha, hb⟩ | hm) | ⟨r', hr', ha, hb⟩)
      · exact Or.inr ⟨r, Or.inl rfl, ha, hb⟩
      · exact Or.inl hm
      · exact Or.inr ⟨r', Or.inr hr', ha, hb⟩
    · rintro (hm | ⟨r', hr' | hr', ha, hb⟩)
      · exact Or.inl (Or.inr hm)
      · exact Or.inl (Or.inl ⟨hr' ▸ ha, hr' ▸ hb⟩)
      · exact Or.inr ⟨r', hr', ha, hb⟩

theorem mem_collect_md_files (fs : FsNode) (root : List String) (n : FsNode)
    (h : fs.lookup root = some n)
    (hnd : ((mdPathsNode n).map toKey).Nodup) (k v : String) :
    ((k, v) ∈ collect_md_files fs root ↔
      ∃ r ∈ mdPathsNode n, k = toKey r ∧ v = stemOf r) := by
  rw [collect_md_files_spec fs root n h]
  have hnd' : ((mdPathsNode n).map (fun r => toKey ([] ++ r))).Nodup := by
    simpa using hnd
  rw [mem_insertAllRel [] k v (mdPathsNode n) [] hnd' (by simp)]
  simp

mutual
theorem collect_recursiveP_eq (root : List String) (node : FsNode) :
    ∀ (d : List String) (files : List (String × String)),
    collect_recursiveP root (root ++ d) node files =
      some (collect_recursive root (root ++ d) node files) := by
  cases node with
  | file r c =>
    intro d files
    rfl
  | dir r es =>
    cases r with
    | false =>
      intro d files
      rfl
    | true =>
      intro d files
      simp only [collect_recursiveP, collect_recursive]
      exact collectEntriesP_eq root es d files
termination_by structural node

theorem collectEntriesP_eq (root : List String) (es : FsEntries) :
    ∀ (d : List String) (files : List (String × String)),
    collectEntriesP root (root ++ d) es files =
      some (collectEntries root (root ++ d) es files) := by
  cases es with
  | nil =>
    intro d files
    rfl
  | cons name child rest =>
    intro d files
    cases child with
    | dir r es2 =>
      simp only [collectEntriesP, collectEntries]
      have h1 : (root ++ d) ++ [name] = root ++ (d ++ [name]) :=
        List.append_assoc root d [name]
      rw [h1, collect_recursiveP_eq root (FsNode.dir r es2) (d ++ [name]) files]
      exact collectEntriesP_eq root rest d _
    | file r c =>
      by_cases hmd : extension name = some "md"
      · simp only [collectEntriesP, collectEntries, if_pos hmd]
        have hstrip : stripRoot root ((root ++ d) ++ [name]) = some (d ++ [name]) := by
          rw [List.append_assoc]
          exact stripRoot_append root (d ++ [name])
        have hstem : file_stem name = some (splitName name).1 := by
          rw [file_stem, if_neg (extension_ne_empty hmd)]
        rw [hstrip, hstem]
        simp only [Option.getD_some]
        exact collectEntriesP_eq root rest d _
      · simp only [collectEntriesP, collectEntries, if_neg hmd]
        exact collectEntriesP_eq root rest d files
termination_by structural es
end

theorem collect_md_filesP_eq (fs : FsNode) (root : List String) :
    collect_md_filesP fs root = some (collect_md_files fs root) := by
  cases h : fs.lookup root with
  | none =>
    rw [collect_md_filesP, collect_md_files, h]
  | some n =>
    rw [collect_md_filesP, collect_md_files, h]
    have h2 := collect_recursiveP_eq root n [] []
    rw [List.append_nil] at h2
    exact h2

theorem collectEntries_skip_unreadable (root dirPath : List String) (name : String)
    (es2 : FsEntries) (rest : FsEntries) (files : List (String × String)) :
    collectEntries root dirPath (FsEntries.cons name (FsNode.dir false es2) rest) files =
      collectEntries root dirPath rest files :=
  rfl

theorem sidebarItem_eq (current : String) (e : String × String) :
    sidebarItem current e = if e.1 = current then activeItem e else plainItem e := by
  by_cases h : e.1 = current
  · simp only [sidebarItem, activeItem, if_pos h]
  · simp only [sidebarItem, plainItem, if_neg h]
    rw [String.append_empty]

theorem activeItem_ne_plainItem (e : String × String) : activeItem e ≠ plainItem e := by
  intro h
  have hl := congrArg String.length h
  rw [activeItem, plainItem] at hl
  simp only [String.length_append] at hl
  have h15 : " class=\"active\"".length = 15 := rfl
  rw [h15] at hl
  omega

theorem foldl_sidebar (current : String) : ∀ (l : List (String × String)) (acc : String),
    l.foldl (fun out e => out ++ sidebarItem current e) acc =
      acc ++ concatStrings (l.map (fun e => sidebarItem current e)) := by
  intro l
  induction l with
  | nil =>
    intro acc
    simp [concatStrings, String.append_empty]
  | cons e rest ih =>
    intro acc
    simp only [List.foldl_cons, List.map_cons, concatStrings, ih, String.append_assoc]

theorem build_sidebar_eq (files : List (String × String)) (current : String) :
    build_sidebar files current =
      "<ul>" ++ concatStrings (files.map (fun e => sidebarItem current e)) ++ "</ul>" := by
  rw [build_sidebar, foldl_sidebar, String.append_assoc]

theorem countP_key (current : String) : ∀ files : List (String × String),
    (files.map Prod.fst).Nodup →
    files.countP (fun e => e.1 == current) =
      if current ∈ files.map Prod.fst then 1 else 0 := by
  intro files
  induction files with
  | nil =>
    intro _
    simp
  | cons e rest ih =>
    intro hnd
    simp only [List.map_cons, List.nodup_cons] at hnd
    rw [List.countP_cons]
    by_cases h : e.1 = current
    · have hc : current ∉ rest.map Prod.fst := h ▸ hnd.1
      rw [ih hnd.2, if_neg hc]
      simp [h]
    · rw [ih hnd.2]
      have hm : (current ∈ (e :: rest).map Prod.fst) ↔ current ∈ rest.map Prod.fst := by
        simp only [List.map_cons, List.mem_cons]
        constructor
        · rintro (he | hr)
          · exact absurd he.symm h
          · exact hr
        · exact Or.inr
      by_cases hc : current ∈ rest.map Prod.fst
      · rw [if_pos hc, if_pos (hm.mpr hc)]
        simp [h]
      · rw [if_neg hc, if_neg (fun hx => hc (hm.mp hx))]
        simp [h]

theorem view_error (fs : FsNode) (root : List String) (css path : String) (e : IoErr)
    (h : file_to_markdown fs root path = Except.error e) :
    view fs root css path = ⟨200, notFoundBody⟩ := by
  rw [view, h]

theorem view_ok (fs : FsNode) (root : List String) (css path c : String)
    (h : file_to_markdown fs root path = Except.ok c) :
    view fs root css path =
      ⟨200, pageHtml css path (build_sidebar (collect_md_files fs root) path) c⟩ := by
  rw [view, h]

theorem pageHtml_embed (css path sidebar content : String) :
    ∃ s₁ s₂ : String, pageHtml css path sidebar content = s₁ ++ content ++ s₂ := by
  refine ⟨"<!DOCTYPE html>\n<html>\n<head>\n    <meta charset=\"utf-8\">\n    <title>" ++
    path ++ "</title>\n    <style>" ++ css ++
    "</style>\n</head>\n<body>\n    <nav class=\"sidebar\">" ++ sidebar ++
    "</nav>\n    <main class=\"content\">", "</main>\n</body>\n</html>", rfl⟩

/-- C1: if canonicalizing the root joined with the requested string yields a
path that does not have the canonicalized root as a component-wise prefix,
`file_to_markdown` answers NotFound and returns no file content. -/
theorem resolve_outside_root_notFound (fs : FsNode) (root : List String) (p : String)
    (q : List String)
    (hc : canonicalizePath fs (joinPath root p) = some q)
    (hout : startsWithRoot q root = false) :
    file_to_markdown fs root p = Except.error IoErr.notFound := by
  simp only [file_to_markdown, hc]
  rw [if_neg (by simp [hout])]

/-- Witness for C1: with root `/srv/docs` the request `../docs-evil/x.md`
canonicalizes to the sibling `/srv/docs-evil/x.md`, which shares a string
prefix with the root but is not component-wise under it, and resolution
answers NotFound. -/
theorem resolve_outside_root_notFound_witness :
    canonicalizePath fsEx (joinPath rootEx "../docs-evil/x.md") =
        some ["srv", "docs-evil", "x.md"] ∧
    startsWithRoot ["srv", "docs-evil", "x.md"] rootEx = false ∧
    file_to_markdown fsEx rootEx "../docs-evil/x.md" = Except.error IoErr.notFound :=
  ⟨rfl, rfl, resolve_outside_root_notFound fsEx rootEx "../docs-evil/x.md"
    ["srv", "docs-evil", "x.md"] rfl rfl⟩

/-- C2: a request canonicalizing to an existing readable markdown file under
the root resolves to that file's content, and `view` answers 200 with the
content embedded verbatim in the body. -/
theorem resolve_inside_root_ok (fs : FsNode) (root : List String) (css p : String)
    (q : List String) (c : String)
    (hc : canonicalizePath fs (joinPath root p) = some q)
    (hin : startsWithRoot q root = true)
    (hmd : extension (q.getLastD "") = some "md")
    (hread : readFile fs q = some c) :
    file_to_markdown fs root p = Except.ok c ∧
    (view fs root css p).status = 200 ∧
    ∃ s₁ s₂ : String, (view fs root css p).body = s₁ ++ c ++ s₂ := by
  have hftm : file_to_markdown fs root p = Except.ok c := by
    simp only [file_to_markdown, hc, hread]
    rw [if_pos hin]
  refine ⟨hftm, ?_, ?_⟩
  · rw [view_ok fs root css p c hftm]
  · rw [view_ok fs root css p c hftm]
    exact pageHtml_embed css p _ c

/-- Witness for C2 at the markdown file `/srv/docs/a.md`. -/
theorem resolve_inside_root_ok_witness :
    canonicalizePath fsEx (joinPath rootEx "a.md") = some ["srv", "docs", "a.md"] ∧
    readFile fsEx ["srv", "docs", "a.md"] = some "# A" ∧
    (file_to_markdown fsEx rootEx "a.md" = Except.ok "# A" ∧
     (view fsEx rootEx "" "a.md").status = 200 ∧
     ∃ s₁ s₂ : String, (view fsEx rootEx "" "a.md").body = s₁ ++ "# A" ++ s₂) :=
  ⟨rfl, rfl, resolve_inside_root_ok fsEx rootEx "" "a.md" ["srv", "docs", "a.md"] "# A"
    rfl rfl rfl rfl⟩

/-- C3: every failure of resolution, whatever its cause, makes `view`
answer one and the same fixed page, so the response never distinguishes
the failure reason. -/
theorem view_uniform_failure (fs : FsNode) (root : List String) (css : String)
    (p₁ p₂ : String) (e₁ e₂ : IoErr)
    (h₁ : file_to_markdown fs root p₁ = Except.error e₁)
    (h₂ : file_to_markdown fs root p₂ = Except.error e₂) :
    view fs root css p₁ = view fs root css p₂ ∧
    view fs root css p₁ = ⟨200, notFoundBody⟩ := by
  rw [view_error fs root css p₁ e₁ h₁, view_error fs root css p₂ e₂ h₂]
  exact ⟨rfl, rfl⟩

/-- Witness for C3: a traversal rejection (`../../etc/passwd`, NotFound)
and a read failure (`sub` is a directory, a different io error) produce
the identical fixed response. -/
theorem view_uniform_failure_witness :
    file_to_markdown fsEx rootEx "../../etc/passwd" = Except.error IoErr.notFound ∧
    file_to_markdown fsEx rootEx "sub" = Except.error IoErr.other ∧
    (view fsEx rootEx "" "../../etc/passwd" = view fsEx rootEx "" "sub" ∧
     view fsEx rootEx "" "../../etc/passwd" = ⟨200, notFoundBody⟩) :=
  ⟨rfl, rfl, view_uniform_failure fsEx rootEx ""
    "../../etc/passwd" "sub" IoErr.notFound IoErr.other rfl rfl⟩

/-- C4: resolution does not filter on the markdown extension, so `view`
serves the plain-text file `notes.txt` under the root although the
markdown index omits it. -/
theorem view_serves_non_markdown :
    file_to_markdown fsEx rootEx "notes.txt" = Except.ok "plain" ∧
    (view fsEx rootEx "" "notes.txt").status = 200 ∧
    (∃ s₁ s₂ : String, (view fsEx rootEx "" "notes.txt").body = s₁ ++ "plain" ++ s₂) ∧
    "notes.txt" ∉ (collect_md_files fsEx rootEx).map Prod.fst := by
  refine ⟨rfl, rfl, ?_, by decide⟩
  rw [view_ok fsEx rootEx "" "notes.txt" "plain" rfl]
  exact pageHtml_embed "" "notes.txt" _ "plain"

/-- Counterexample to C5 as stated: on the failing request `missing.md`
the handler's status is 200, not an unambiguous non-200 status (the body
is the fixed not-found page). -/
theorem view_failure_nonstandard_status :
    file_to_markdown fsEx rootEx "missing.md" = Except.error IoErr.notFound ∧
    (view fsEx rootEx "" "missing.md").status = 200 ∧
    (view fsEx rootEx "" "missing.md").body = notFoundBody :=
  ⟨rfl, rfl, rfl⟩

/-- C5 (amended): on every failing request `view` answers the fixed
"file not found" page, with HTTP status 200. -/
theorem view_failure_fixed_page (fs : FsNode) (root : List String) (css p : String)
    (e : IoErr) (h : file_to_markdown fs root p = Except.error e) :
    view fs root css p = ⟨200, notFoundBody⟩ :=
  view_error fs root css p e h

/-- Witness for the amended C5. -/
theorem view_failure_fixed_page_witness :
    file_to_markdown fsEx rootEx "missing2.md" = Except.error IoErr.notFound ∧
    view fsEx rootEx "" "missing2.md" = ⟨200, notFoundBody⟩ :=
  ⟨rfl, view_failure_fixed_page fsEx rootEx "" "missing2.md" IoErr.notFound rfl⟩

/-- C6: on a non-empty index the `index` handler redirects to the view of
the lexicographically smallest key, and on an empty index it redirects to
`/view/` with the empty path instead of crashing. -/
theorem index_redirect_first (fs : FsNode) (root : List String) :
    (collect_md_files fs root = [] ∧ indexRedirect fs root = "/view/") ∨
    (∃ k v rest, collect_md_files fs root = (k, v) :: rest ∧
      indexRedirect fs root = "/view/" ++ k ∧
      ∀ x ∈ (collect_md_files fs root).map Prod.fst, x = k ∨ strLt k x = true) := by
  cases hm : collect_md_files fs root with
  | nil =>
    left
    refine ⟨rfl, ?_⟩
    rw [indexRedirect, hm]
    rfl
  | cons e rest =>
    right
    have hs := sortedKeys_collect_md_files fs root
    rw [hm, SortedKeys, List.pairwise_cons] at hs
    refine ⟨e.1, e.2, rest, rfl, ?_, ?_⟩
    · rw [indexRedirect, hm]
      rfl
    · intro x hx
      simp only [List.map_cons, List.mem_cons] at hx
      rcases hx with hx | hx
      · exact Or.inl hx
      · rcases List.mem_map.mp hx with ⟨b, hb, hbx⟩
        exact Or.inr (hbx ▸ hs.1 b hb)

/-- C7: scanning is deterministic (the model is a pure function of the
filesystem value) and its output is strictly sorted ascending by key in
codepoint-lexicographic order. -/
theorem scan_deterministic_sorted (fs : FsNode) (root : List String) :
    collect_md_files fs root = collect_md_files fs root ∧
    (collect_md_files fs root).Pairwise (fun a b => strLt a.1 b.1 = true) :=
  ⟨rfl, sortedKeys_collect_md_files fs root⟩

/-- C8: the scan indexes exactly the files reachable through readable
directories whose name has extension exactly `md`, keyed by the
slash-joined root-relative path with the stem as display name; in
particular `sub/dir/notes.md` yields exactly the entry
`("sub/dir/notes.md", "notes")`. -/
theorem scan_indexes_exactly_md (fs : FsNode) (root : List String) (n : FsNode)
    (h : fs.lookup root = some n)
    (hnd : ((mdPathsNode n).map toKey).Nodup) :
    (∀ k v : String, (k, v) ∈ collect_md_files fs root ↔
      ∃ r ∈ mdPathsNode n, k = toKey r ∧ v = stemOf r) ∧
    collect_md_files fsEx8 ["r"] = [("sub/dir/notes.md", "notes")] :=
  ⟨fun k v => mem_collect_md_files fs root n h hnd k v, rfl⟩

/-- Witness for C8 at the concrete tree holding `sub/dir/notes.md`. -/
theorem scan_indexes_exactly_md_witness :
    (("sub/dir/notes.md", "notes") ∈ collect_md_files fsEx8 ["r"] ↔
      ∃ r ∈ mdPathsNode nEx8, "sub/dir/notes.md" = toKey r ∧ "notes" = stemOf r) ∧
    collect_md_files fsEx8 ["r"] = [("sub/dir/notes.md", "notes")] :=
  ⟨(scan_indexes_exactly_md fsEx8 ["r"] nEx8 rfl (by decide)).1 "sub/dir/notes.md" "notes",
   (scan_indexes_exactly_md fsEx8 ["r"] nEx8 rfl (by decide)).2⟩

/-- C9: the sidebar is a pure function of the index and the current path;
each rendered entry carries the active marker exactly when its key equals
the current path, the number of active entries is one when the current
path is a key of the index and zero otherwise, and the active rendering
differs from the plain one. -/
theorem sidebar_active_count (files : List (String × String)) (current : String)
    (hnd : (files.map Prod.fst).Nodup) :
    build_sidebar files current =
      "<ul>" ++ concatStrings (files.map (fun e =>
        if e.1 = current then activeItem e else plainItem e)) ++ "</ul>" ∧
    files.countP (fun e => e.1 == current) =
      (if current ∈ files.map Prod.fst then 1 else 0) ∧
    ∀ e : String × String, activeItem e ≠ plainItem e := by
  refine ⟨?_, countP_key current files hnd, activeItem_ne_plainItem⟩
  rw [build_sidebar_eq files current]
  have hmap : files.map (fun e => sidebarItem current e) =
      files.map (fun e => if e.1 = current then activeItem e else plainItem e) :=
    List.map_congr_left (fun e _ => sidebarItem_eq current e)
  rw [hmap]

/-- Witness for C9 on a two-entry index with `b.md` current. -/
theorem sidebar_active_count_witness :
    ([("a.md", "a"), ("b.md", "b")].countP (fun e => e.1 == "b.md")) =
      (if "b.md" ∈ [("a.md", "a"), ("b.md", "b")].map Prod.fst then 1 else 0) :=
  (sidebar_active_count [("a.md", "a"), ("b.md", "b")] "b.md" (by decide)).2.1

/-- C10: the recursive scan is total; the panic-tracking variant, which
models the two `unwrap`s of the source faithfully, always succeeds and
agrees with the scan, and an unreadable directory entry is silently
skipped, the traversal of its siblings continuing unchanged. -/
theorem scan_total_no_panic (fs : FsNode) (root : List String) :
    collect_md_filesP fs root = some (collect_md_files fs root) ∧
    ∀ (dirPath : List String) (name : String) (es2 rest : FsEntries)
      (files : List (String × String)),
      collectEntries root dirPath (FsEntries.cons name (FsNode.dir false es2) rest) files =
        collectEntries root dirPath rest files :=
  ⟨collect_md_filesP_eq fs root, fun _ _ _ _ _ => rfl⟩
